import Mathlib

/-!
Verification of the `transcript_transformer` repository core algorithms:
the memory-bounded batch scheduler (`bucket`, `local_shuffle` in
`transcript_loader.py`) and the ORF-calling / classification / emission engine
(`construct_output_table`, `csv_to_gtf` in `processing.py`).

Each definition below is a shallow embedding of the corresponding Python code;
machine floats (model scores) are modelled as rationals, since the code only
ever compares them.  Functions from `util_functions.py` (which is not part of
the sources) are modelled from the specification and flagged as such.
-/

/-! ## Batch scheduler: `bucket` (transcript_loader.py, lines 71-97)

`bucket(data, lens, max_seq_len, max_transcripts_per_batch, min_seq_len)`
first drops the lengths outside `[min_seq_len, max_seq_len]`, then repeatedly
computes, over the still unbatched suffix, the mask
`(np.maximum.accumulate(lens_set)+2) * (np.arange(len(lens_set))+1) >= max_seq_len`
and closes a batch of `min(first_mask_index, max_transcripts_per_batch)`
transcripts when the first mask index is positive; otherwise it stops and the
whole remaining suffix becomes the final batch (`np.split` keeps the tail).
The split positions depend only on the lengths, so the embedding partitions
the length list itself. -/

/-- First position `i` (0-based, counting from `pos`) in `xs` at which
`(running_max + 2) * (i + 1) ≥ maxSeqLen`, the running maximum starting from
`curMax`.  Embeds `np.where(mask)[0][0]` of the bucket loop. -/
def findSplit (maxSeqLen : Nat) : List Nat → Nat → Nat → Option Nat
  | [], _, _ => none
  | x :: xs, curMax, pos =>
    if maxSeqLen ≤ (max curMax x + 2) * (pos + 1) then some pos
    else findSplit maxSeqLen xs (max curMax x) (pos + 1)

/-- First index of the bucket-loop memory mask over the unbatched suffix. -/
def firstMaskIdx (lensSet : List Nat) (maxSeqLen : Nat) : Option Nat :=
  findSplit maxSeqLen lensSet 0 0

/-- The `while len(data) > num_samples` loop of `bucket`.  `fuel` bounds the
number of iterations (each genuine iteration removes at least one element, so
`lensSet.length` fuel is enough whenever `maxTpb > 0`; on fuel exhaustion the
remaining suffix is returned as the final batch, exactly like the `break`). -/
def bucketLoop (maxSeqLen maxTpb : Nat) : Nat → List Nat → List (List Nat)
  | 0, lensSet => [lensSet]
  | fuel + 1, lensSet =>
    match firstMaskIdx lensSet maxSeqLen with
    | some i =>
      if 0 < i then
        let d := min i maxTpb
        lensSet.take d :: bucketLoop maxSeqLen maxTpb fuel (lensSet.drop d)
      else [lensSet]
    | none => [lensSet]

/-- `bucket` of `transcript_loader.py`: length filter, then greedy bucketing.
Returns the partition of the (filtered) length list into batches; the final
element is the remainder batch that `np.split` always keeps. -/
def bucket (lens : List Nat) (maxSeqLen maxTpb minSeqLen : Nat) : List (List Nat) :=
  let fl := lens.filter (fun x => x ≤ maxSeqLen && minSeqLen ≤ x)
  bucketLoop maxSeqLen maxTpb fl.length fl

lemma findSplit_lt_length (M : Nat) :
    ∀ (xs : List Nat) (c p i : Nat), findSplit M xs c p = some i → i < p + xs.length := by
  intro xs
  induction xs with
  | nil => intro c p i h; simp [findSplit] at h
  | cons x xs ih =>
    intro c p i h
    rw [findSplit] at h
    by_cases hM : M ≤ (max c x + 2) * (p + 1)
    · rw [if_pos hM] at h
      have hpi : p = i := Option.some.inj h
      simp only [List.length_cons]
      omega
    · rw [if_neg hM] at h
      have := ih (max c x) (p + 1) i h
      simp only [List.length_cons]
      omega

lemma findSplit_take_lt (M : Nat) :
    ∀ (xs : List Nat) (c p i : Nat), findSplit M xs c p = some i →
      ∀ d, 0 < d → p + d ≤ i → ((xs.take d).foldl max c + 2) * (p + d) < M := by
  intro xs
  induction xs with
  | nil => intro c p i h; simp [findSplit] at h
  | cons x xs ih =>
    intro c p i h d hd hdi
    rw [findSplit] at h
    by_cases hM : M ≤ (max c x + 2) * (p + 1)
    · simp [hM] at h
      omega
    · simp [hM] at h
      match d, hd with
      | 1, _ =>
        simpa [List.take, List.foldl] using Nat.lt_of_not_le hM
      | e + 2, _ =>
        have := ih (max c x) (p + 1) i h (e + 1) (Nat.succ_pos e) (by omega)
        have harr : p + 1 + (e + 1) = p + (e + 2) := by omega
        simpa [List.take_succ_cons, List.foldl, harr] using this

lemma bucketLoop_ne_nil (M T fuel : Nat) (ls : List Nat) :
    bucketLoop M T fuel ls ≠ [] := by
  cases fuel with
  | zero => simp [bucketLoop]
  | succ n =>
    rw [bucketLoop]
    cases firstMaskIdx ls M with
    | none => simp
    | some i =>
      by_cases hi : 0 < i <;> simp [hi]

lemma bucketLoop_dropLast (M T : Nat) :
    ∀ (fuel : Nat) (ls : List Nat), ∀ b ∈ (bucketLoop M T fuel ls).dropLast,
      b.length ≤ T ∧ (b.foldl max 0 + 2) * b.length ≤ M := by
  intro fuel
  induction fuel with
  | zero => intro ls b hb; simp [bucketLoop] at hb
  | succ n ih =>
    intro ls b hb
    rw [bucketLoop] at hb
    cases heq : firstMaskIdx ls M with
    | none => rw [heq] at hb; simp at hb
    | some i =>
      rw [heq] at hb
      by_cases hi : 0 < i
      · simp only [hi, if_true] at hb
        rw [List.dropLast_cons_of_ne_nil (bucketLoop_ne_nil M T n _)] at hb
        rcases List.mem_cons.mp hb with hb | hb
        · subst hb
          have hilen : i < ls.length := by
            have := findSplit_lt_length M ls 0 0 i heq
            omega
          have hdlen : (ls.take (min i T)).length = min i T := by
            rw [List.length_take]
            omega
          constructor
          · rw [hdlen]; exact Nat.min_le_right i T
          · by_cases hT : 0 < min i T
            · have := findSplit_take_lt M ls 0 0 i heq (min i T) hT
                (by rw [Nat.zero_add]; exact Nat.min_le_left i T)
              rw [Nat.zero_add] at this
              rw [hdlen]
              exact Nat.le_of_lt this
            · have h0 : min i T = 0 := by omega
              rw [hdlen, h0]
              simp
        · exact ih _ b hb
      · simp only [hi, if_false] at hb
        simp at hb

/-- C1 (amended): for a length-filtered, ascending-length input, every batch
produced by `bucket` **except the final remainder batch** satisfies both
bounds: `(max length in batch + 2) * (batch size) ≤ max_seq_len` and
`batch size ≤ max_transcripts_per_batch`.  The final batch (the tail that
`np.split` keeps after the loop breaks) may violate both. -/
theorem bucket_closed_batch_invariant (lens : List Nat) (M T mn : Nat)
    (_hsorted : lens.Sorted (· ≤ ·)) :
    ∀ b ∈ (bucket lens M T mn).dropLast,
      b.length ≤ T ∧ (b.foldl max 0 + 2) * b.length ≤ M := by
  intro b hb
  exact bucketLoop_dropLast M T _ _ b hb

theorem bucket_closed_batch_invariant_witness :
    [5, 5].length ≤ 2 ∧ ([5, 5].foldl max 0 + 2) * [5, 5].length ≤ 20 :=
  bucket_closed_batch_invariant [5, 5, 5] 20 2 0 (by decide) [5, 5] (by decide)

/-- C1 (counterexample): the claim fails on the final batch.  With lengths
`[1,1,1]`, budget `1000` and at most `2` transcripts per batch, the loop never
closes a batch and the whole input is returned as one batch of `3 > 2`
transcripts.  With lengths `[8,8]` and budget `10`, the very first mask index
is `0`, the loop breaks, and the final batch holds two transcripts with
`(8+2)*2 = 20 > 10` — not a singleton oversized batch. -/
theorem bucket_claim_counterexample :
    bucket [1, 1, 1] 1000 2 0 = [[1, 1, 1]] ∧ 2 < 3 ∧
    bucket [8, 8] 10 500 0 = [[8, 8]] ∧ 10 < (([8, 8].foldl max 0) + 2) * 2 ∧ 1 < 2 := by
  refine ⟨by decide, by decide, by decide, by decide, by decide⟩

/-! ## Batch scheduler: `local_shuffle` (transcript_loader.py, lines 46-69)

`local_shuffle(data, lens)` computes `splits = np.arange(1, max(lens), 400)`,
then for each window `(l, u)` in `zip(splits, np.hstack((splits[1:], [999999])))`
collects the positions whose length satisfies `l < len ≤ u`, shuffles them
randomly, and concatenates the window results.  `np.random.shuffle` is modelled
by a function parameter `σ` (indexed by the window number so that distinct
calls may shuffle differently) used under the hypothesis that it permutes its
argument.  The function returns `none` exactly where the Python code raises:
`max(lens)` on an empty input, and `np.hstack([])` when there are no windows
(all lengths are `0` or `1`). -/

/-- Number of elements of `np.arange(1, maxLen, 400)`. -/
def nSplits (maxLen : Nat) : Nat := (maxLen - 1 + 399) / 400

/-- `np.arange(1, maxLen, 400)`: the window split points `1, 401, 801, …`. -/
def shuffleSplits (maxLen : Nat) : List Nat :=
  (List.range (nSplits maxLen)).map (fun i => 1 + 400 * i)

/-- The `(lower, upper]` windows: `zip(splits, np.hstack((splits[1:], [999999])))`. -/
def shuffleWindows (maxLen : Nat) : List (Nat × Nat) :=
  (shuffleSplits maxLen).zip ((shuffleSplits maxLen).drop 1 ++ [999999])

/-- `idxs[np.logical_and(l < lens, lens <= u)]`: the positions whose length
falls in the window `w`. -/
def windowFilter (lens : List Nat) (w : Nat × Nat) : List Nat :=
  (List.range lens.length).filter
    (fun i => decide (w.1 < lens.getD i 0) && decide (lens.getD i 0 ≤ w.2))

/-- `local_shuffle` of `transcript_loader.py`, returning the concatenated
shuffled index list (the returned `data`/`lens` are the input reindexed by it). -/
def local_shuffle (σ : Nat → List Nat → List Nat) (lens : List Nat) :
    Option (List Nat) :=
  if lens = [] then none
  else if shuffleWindows (lens.foldr max 0) = [] then none
  else some (((shuffleWindows (lens.foldr max 0)).enum.map
    (fun kw => σ kw.1 (windowFilter lens kw.2))).flatten)

/-- Upper bound of the `k`-th window: the next split point, or `999999` for the
last window. -/
def windowUB (n k : Nat) : Nat := if k + 1 < n then 1 + 400 * (k + 1) else 999999

/-- The largest length any window can accept: `999999`, or the last split point
when the split points extend past it (which happens as soon as
`max(lens) > 1000001`). -/
def windowCap (lens : List Nat) : Nat :=
  max 999999 (1 + 400 * (nSplits (lens.foldr max 0) - 1))

lemma shuffleWindows_eq (M : Nat) :
    shuffleWindows M = (List.range (nSplits M)).map
      (fun k => (1 + 400 * k, windowUB (nSplits M) k)) := by
  apply List.ext_getElem
  · simp only [shuffleWindows, shuffleSplits, List.length_zip, List.length_append,
      List.length_drop, List.length_map, List.length_range, List.length_singleton]
    rcases Nat.eq_zero_or_pos (nSplits M) with h' | h'
    · simp [h']
    · have h'' : nSplits M - 1 + 1 = nSplits M := by omega
      rw [h'']
      exact min_self _
  · intro k h1 h2
    have hk : k < nSplits M := by
      simpa using h2
    rw [List.getElem_map, List.getElem_range]
    simp only [shuffleWindows] at h1 ⊢
    rw [List.getElem_zip, Prod.mk.injEq]
    have hsp : ∀ (j : Nat) (hj : j < (shuffleSplits M).length),
        (shuffleSplits M)[j] = 1 + 400 * j := by
      intro j hj
      simp [shuffleSplits]
    have hlen : ((shuffleSplits M).drop 1).length = nSplits M - 1 := by
      simp [shuffleSplits]
    constructor
    · exact hsp k (by simp [shuffleSplits]; omega)
    · by_cases hk1 : k < nSplits M - 1
      · rw [List.getElem_append_left (by rw [hlen]; omega)]
        rw [List.getElem_drop]
        rw [hsp (1 + k) (by simp [shuffleSplits]; omega)]
        unfold windowUB
        rw [if_pos (by omega)]
        ring
      · rw [List.getElem_append_right (by rw [hlen]; omega)]
        rw [List.getElem_singleton]
        unfold windowUB
        rw [if_neg (by omega)]

lemma filter_append_filter_perm {α : Type} (p q : α → Bool) :
    ∀ (l : List α), (∀ x ∈ l, ¬(p x = true ∧ q x = true)) →
      (l.filter p ++ l.filter q).Perm (l.filter (fun x => p x || q x)) := by
  intro l
  induction l with
  | nil => intro _; simp
  | cons a l ih =>
    intro h
    have hl : ∀ x ∈ l, ¬(p x = true ∧ q x = true) :=
      fun x hx => h x (List.mem_cons_of_mem a hx)
    by_cases hp : p a = true
    · have hq : ¬q a = true := fun hq => h a (List.mem_cons_self a l) ⟨hp, hq⟩
      simp only [List.filter_cons, hp, if_true, Bool.or_eq_true, hq, or_false,
        List.cons_append]
      exact (ih hl).cons a
    · by_cases hq : q a = true
      · simp only [List.filter_cons, hp, if_false, hq, if_true, Bool.or_eq_true,
          or_true, Bool.false_or]
        exact List.Perm.trans List.perm_middle ((ih hl).cons a)
      · simp only [List.filter_cons, hp, if_false, hq, Bool.or_eq_true, or_self]
        exact ih hl

lemma flatten_filter_family_perm {α : Type} (l : List α) :
    ∀ (ps : List (α → Bool)),
      List.Pairwise (fun p q => ∀ x ∈ l, ¬(p x = true ∧ q x = true)) ps →
      ((ps.map (fun p => l.filter p)).flatten).Perm
        (l.filter (fun x => ps.any (fun p => p x))) := by
  intro ps
  induction ps with
  | nil => intro _; simp
  | cons p ps ih =>
    intro hpw
    rw [List.pairwise_cons] at hpw
    simp only [List.map_cons, List.flatten_cons, List.any_cons]
    have h1 := ih hpw.2
    have h2 := h1.append_left (l.filter p)
    refine h2.trans ?_
    apply filter_append_filter_perm
    intro x hx ⟨hpx, hanyx⟩
    rcases List.any_eq_true.mp hanyx with ⟨q, hq, hqx⟩
    exact hpw.1 q hq x hx ⟨hpx, hqx⟩

lemma window_union_arith (n : Nat) (hn : 0 < n) (L : Nat) :
    (∃ k, k < n ∧ 1 + 400 * k < L ∧ L ≤ windowUB n k) ↔
    (1 < L ∧ L ≤ max 999999 (1 + 400 * (n - 1))) := by
  have hmc := max_choice 999999 (1 + 400 * (n - 1))
  constructor
  · rintro ⟨k, hk, hlo, hhi⟩
    unfold windowUB at hhi
    have hmax1 : 999999 ≤ max 999999 (1 + 400 * (n - 1)) := le_max_left _ _
    have hmax2 : 1 + 400 * (n - 1) ≤ max 999999 (1 + 400 * (n - 1)) := le_max_right _ _
    by_cases h : k + 1 < n
    · rw [if_pos h] at hhi
      omega
    · rw [if_neg h] at hhi
      omega
  · rintro ⟨h1, h2⟩
    by_cases hx : 1 + 400 * (n - 1) < L
    · refine ⟨n - 1, by omega, by omega, ?_⟩
      unfold windowUB
      rw [if_neg (by omega)]
      omega
    · refine ⟨(L - 2) / 400, by omega, by omega, ?_⟩
      unfold windowUB
      rw [if_pos (by omega)]
      omega

/-- C10 (amended): whenever `local_shuffle` returns an index sequence, that
sequence is a permutation of exactly the input positions whose transcript
length is strictly greater than `1` and at most `windowCap lens`
(= `999999`, or the last window split point when the splits extend past it,
i.e. when the maximum length exceeds `1000001`). -/
theorem local_shuffle_perm (σ : Nat → List Nat → List Nat)
    (hσ : ∀ k w, (σ k w).Perm w) (lens : List Nat) (out : List Nat)
    (h : local_shuffle σ lens = some out) :
    out.Perm ((List.range lens.length).filter
      (fun i => decide (1 < lens.getD i 0) && decide (lens.getD i 0 ≤ windowCap lens))) := by
  unfold local_shuffle at h
  by_cases h0 : lens = []
  · rw [if_pos h0] at h
    exact absurd h (by simp)
  · rw [if_neg h0] at h
    by_cases hw : shuffleWindows (lens.foldr max 0) = []
    · rw [if_pos hw] at h
      exact absurd h (by simp)
    · rw [if_neg hw] at h
      have hout := (Option.some.inj h).symm
      subst hout
      have hn : 0 < nSplits (lens.foldr max 0) := by
        rcases Nat.eq_zero_or_pos (nSplits (lens.foldr max 0)) with h' | h'
        · exact absurd (by simp [shuffleWindows, shuffleSplits, h']) hw
        · exact h'
      set M := lens.foldr max 0 with hM
      set n := nSplits M with hnn
      -- drop the shuffles
      have step1 : ((shuffleWindows M).enum.map
            (fun kw => σ kw.1 (windowFilter lens kw.2))).flatten.Perm
          (((shuffleWindows M).enum.map (fun kw => windowFilter lens kw.2)).flatten) := by
        apply List.Perm.flatten_congr
        rw [List.forall₂_map_left_iff, List.forall₂_map_right_iff, List.forall₂_same]
        intro kw _
        exact hσ kw.1 _
      have henum : ((shuffleWindows M).enum.map (fun kw => windowFilter lens kw.2)) =
          (shuffleWindows M).map (windowFilter lens) := by
        have hcomp : (fun kw : Nat × (Nat × Nat) => windowFilter lens kw.2) =
            (windowFilter lens) ∘ Prod.snd := rfl
        rw [hcomp, ← List.map_map, List.enum_map_snd]
      rw [henum] at step1
      refine step1.trans ?_
      rw [shuffleWindows_eq M, List.map_map]
      -- the per-window position predicates
      have hps : (windowFilter lens) ∘ (fun k => (1 + 400 * k, windowUB n k)) =
          fun k => (List.range lens.length).filter
            (fun i => decide (1 + 400 * k < lens.getD i 0) &&
              decide (lens.getD i 0 ≤ windowUB n k)) := rfl
      rw [hps]
      have hfam := flatten_filter_family_perm (List.range lens.length)
        ((List.range n).map (fun k => fun i =>
          decide (1 + 400 * k < lens.getD i 0) && decide (lens.getD i 0 ≤ windowUB n k)))
        ?pairwise
      case pairwise =>
        rw [List.pairwise_map, List.pairwise_iff_getElem]
        intro a b ha hb hab
        rw [List.length_range] at ha hb
        rw [List.getElem_range, List.getElem_range]
        intro x _ ⟨hpx, hqx⟩
        simp only [Bool.and_eq_true, decide_eq_true_eq] at hpx hqx
        unfold windowUB at hpx
        by_cases hcase : a + 1 < n
        · rw [if_pos hcase] at hpx
          omega
        · omega
      rw [List.map_map] at hfam
      refine hfam.trans ?_
      rw [List.filter_congr]
      intro i _
      rw [Bool.eq_iff_iff, List.any_eq_true]
      constructor
      · rintro ⟨p, hp, hpx⟩
        rcases List.mem_map.mp hp with ⟨k, hkmem, hpk⟩
        subst hpk
        simp only [Bool.and_eq_true, decide_eq_true_eq] at hpx ⊢
        rw [List.mem_range] at hkmem
        have := (window_union_arith n hn (lens.getD i 0)).mp
          ⟨k, hkmem, hpx.1, hpx.2⟩
        exact this
      · intro hcap
        simp only [Bool.and_eq_true, decide_eq_true_eq] at hcap
        rcases (window_union_arith n hn (lens.getD i 0)).mpr hcap with ⟨k, hk, hlo, hhi⟩
        refine ⟨fun i => decide (1 + 400 * k < lens.getD i 0) &&
          decide (lens.getD i 0 ≤ windowUB n k), List.mem_map.mpr ⟨k, List.mem_range.mpr hk, rfl⟩, ?_⟩
        simp only [Bool.and_eq_true, decide_eq_true_eq]
        exact ⟨hlo, hhi⟩

theorem local_shuffle_perm_witness :
    ([0, 1] : List Nat).Perm ((List.range ([2, 3] : List Nat).length).filter
      (fun i => decide (1 < ([2, 3] : List Nat).getD i 0) &&
        decide (([2, 3] : List Nat).getD i 0 ≤ windowCap [2, 3]))) :=
  local_shuffle_perm (fun _ w => w) (fun _ _ => List.Perm.refl _) [2, 3] [0, 1] (by decide)

lemma local_shuffle_id_eq (lens : List Nat) (h0 : lens ≠ [])
    (hw : shuffleWindows (lens.foldr max 0) ≠ []) :
    local_shuffle (fun _ w => w) lens =
      some (((shuffleWindows (lens.foldr max 0)).map (windowFilter lens)).flatten) := by
  unfold local_shuffle
  rw [if_neg h0, if_neg hw]
  congr 1
  rw [show (fun kw : Nat × (Nat × Nat) =>
      (fun _ w => w : Nat → List Nat → List Nat) kw.1 (windowFilter lens kw.2)) =
      (windowFilter lens) ∘ Prod.snd from rfl]
  rw [← List.map_map, List.enum_map_snd]

/-- C10 (counterexample): the cap of `999999` only binds in the **last**
window.  With lengths `[2, 1000000, 1000402]` the split points reach
`1000401`, the length-`1000000` transcript falls in the interior window
`(999601, 1000001]`, and position `1` appears in the shuffled output even
though its length exceeds `999999`, contradicting the claim that such
positions are absent. -/
theorem local_shuffle_claim_counterexample :
    999999 < ([2, 1000000, 1000402] : List Nat).getD 1 0 ∧
    1 ∈ (local_shuffle (fun _ w => w) [2, 1000000, 1000402]).getD [] := by
  have hM : ([2, 1000000, 1000402] : List Nat).foldr max 0 = 1000402 := by decide
  have hn : nSplits 1000402 = 2502 := by decide
  have hlen : (shuffleWindows 1000402).length = 2502 := by
    unfold shuffleWindows
    rw [List.length_zip, List.length_append, List.length_drop]
    simp only [shuffleSplits, List.length_map, List.length_range, hn]
    decide
  have hw : shuffleWindows 1000402 ≠ [] := by
    intro hc
    rw [hc] at hlen
    simp at hlen
  refine ⟨by decide, ?_⟩
  rw [local_shuffle_id_eq _ (by decide) (by rw [hM]; exact hw)]
  rw [Option.getD_some, List.mem_flatten]
  refine ⟨windowFilter [2, 1000000, 1000402] (1 + 400 * 2499, windowUB 2502 2499), ?_, ?_⟩
  · refine List.mem_map.mpr ⟨(1 + 400 * 2499, windowUB 2502 2499), ?_, rfl⟩
    rw [hM, shuffleWindows_eq, hn]
    exact List.mem_map.mpr ⟨2499, List.mem_range.mpr (by decide), rfl⟩
  · decide

/-! ## PredictionSelector (processing.py, lines 121-135)

`construct_output_table` flattens the per-transcript prediction vectors
(`np.hstack`), counts `k = (preds > prob_cutoff).sum()`, selects
`idxs = np.argpartition(preds, -k)[-k:]` (the `k` flat positions holding the
`k` largest scores, order unspecified), and resolves each flat index through
`cum_lens = np.cumsum(np.insert(lens, 0, 0))` by
`idx_tr = np.where(cum_lens > idx)[0][0] - 1` and offset `idx - cum_lens[idx_tr]`.
Scores are modelled as rationals (only comparisons are used). -/

/-- Descending order on (score, flat index) pairs. -/
def descScore (a b : ℚ × Nat) : Prop := b.1 ≤ a.1

instance : DecidableRel descScore := fun a b => inferInstanceAs (Decidable (b.1 ≤ a.1))

instance : IsTotal (ℚ × Nat) descScore := ⟨fun a b => le_total b.1 a.1⟩

instance : IsTrans (ℚ × Nat) descScore := ⟨fun _ _ _ h1 h2 => le_trans h2 h1⟩

/-- `k = (preds > prob_cutoff).sum()`. -/
def countAbove (preds : List ℚ) (cutoff : ℚ) : Nat :=
  preds.countP (fun p => decide (cutoff < p))

/-- `np.argpartition(preds, -k)[-k:]`: `k` flat indices holding the `k`
largest scores.  `argpartition` only guarantees the returned index set attains
the top-`k` value multiset; the embedding realises it by fully sorting the
(score, index) pairs by descending score and taking the first `k` indices. -/
def topkIdxs (preds : List ℚ) (k : Nat) : List Nat :=
  (((preds.zip (List.range preds.length)).insertionSort descScore).map Prod.snd).take k

/-- `cum_lens = np.cumsum(np.insert(lens, 0, 0))`. -/
def cumLens (lens : List Nat) : List Nat := List.scanl (· + ·) 0 lens

/-- `idx_tr = np.where(cum_lens > idx)[0][0] - 1`. -/
def rowOfFlat (lens : List Nat) (idx : Nat) : Nat :=
  (cumLens lens).findIdx (fun c => decide (idx < c)) - 1

/-- `idx - cum_lens[idx_tr]`. -/
def offsetOfFlat (lens : List Nat) (idx : Nat) : Nat :=
  idx - (cumLens lens).getD (rowOfFlat lens idx) 0

lemma scanl_add_getD : ∀ (l : List Nat) (a t : Nat), t ≤ l.length →
    (List.scanl (· + ·) a l).getD t 0 = a + (l.take t).sum := by
  intro l
  induction l with
  | nil =>
    intro a t ht
    have ht0 : t = 0 := by simpa using ht
    subst ht0
    simp [List.scanl]
  | cons x xs ih =>
    intro a t ht
    rw [List.scanl_cons]
    cases t with
    | zero => simp
    | succ s =>
      have hs : s ≤ xs.length := by simpa using ht
      have := ih (a + x) s hs
      simp only [List.singleton_append, List.getD_cons_succ, this, List.take_succ_cons,
        List.sum_cons]
      omega

lemma cumLens_getD (lens : List Nat) (t : Nat) (ht : t ≤ lens.length) :
    (cumLens lens).getD t 0 = (lens.take t).sum := by
  rw [cumLens, scanl_add_getD lens 0 t ht, Nat.zero_add]

lemma cumLens_length (lens : List Nat) : (cumLens lens).length = lens.length + 1 := by
  rw [cumLens, List.length_scanl]

/-- In a list sorted by `r`, if `P` is upward closed along `r` then the `P`
elements form exactly the prefix of length `countP P`. -/
lemma sorted_take_countP {α : Type} (r : α → α → Prop) (P : α → Bool)
    (hPr : ∀ a b, r a b → P b = true → P a = true) :
    ∀ (s : List α), s.Sorted r →
      (∀ x ∈ s.take (s.countP P), P x = true) ∧
      (∀ x ∈ s.drop (s.countP P), P x = false) := by
  intro s
  induction s with
  | nil => intro _; simp
  | cons a s ih =>
    intro hs
    have hs' : s.Sorted r := hs.of_cons
    have hrel := List.rel_of_sorted_cons hs
    by_cases hPa : P a = true
    · rw [List.countP_cons, hPa, if_pos rfl]
      constructor
      · intro x hx
        rw [List.take_succ_cons] at hx
        rcases List.mem_cons.mp hx with hx | hx
        · subst hx; exact hPa
        · exact (ih hs').1 x hx
      · intro x hx
        rw [List.drop_succ_cons] at hx
        exact (ih hs').2 x hx
    · have hall : ∀ b ∈ s, P b = false := by
        intro b hb
        cases hPb : P b
        · rfl
        · exact absurd (hPr a b (hrel b hb) hPb) hPa
      have hc : s.countP P = 0 :=
        List.countP_eq_zero.mpr (fun b hb => by rw [hall b hb]; exact Bool.false_ne_true)
      rw [List.countP_cons, hc, if_neg hPa]
      constructor
      · intro x hx; simp at hx
      · intro x hx
        simp only [Nat.add_zero, List.drop_zero] at hx
        rcases List.mem_cons.mp hx with hx | hx
        · subst hx
          exact Bool.not_eq_true _ ▸ hPa
        · exact hall x hx

lemma mem_zip_range (preds : List ℚ) (a : ℚ × Nat)
    (ha : a ∈ preds.zip (List.range preds.length)) :
    a.2 < preds.length ∧ a.1 = preds.getD a.2 0 := by
  rcases List.mem_iff_getElem.mp ha with ⟨j, hj, hget⟩
  have hjlen : j < preds.length := by
    simp only [List.length_zip, List.length_range, min_self] at hj
    exact hj
  rw [List.getElem_zip, List.getElem_range] at hget
  subst hget
  exact ⟨hjlen, (List.getD_eq_getElem preds 0 hjlen).symm⟩

lemma findIdx_getD_true (p : Nat → Bool) (c : List Nat)
    (hF : c.findIdx p < c.length) : p (c.getD (c.findIdx p) 0) = true := by
  rw [List.getD_eq_getElem c 0 hF]
  exact List.findIdx_getElem

lemma findIdx_getD_false (p : Nat → Bool) (c : List Nat) (i : Nat)
    (hi : i < c.findIdx p) (hlen : i < c.length) : p (c.getD i 0) = false := by
  rw [List.getD_eq_getElem c 0 hlen]
  exact List.not_of_lt_findIdx hi

/-- C2: with `k` the number of scores strictly above the cutoff, the selected
flat positions are exactly those whose score strictly exceeds the cutoff; a
flat index `idx` is resolved to the row whose length interval enclosing it and
to the offset `idx` minus the prefix sum of the preceding lengths; and on
scores `[0.1, 0.2, 0.9, 0.05]` with cutoff `0.15` exactly the positions with
scores `0.2` and `0.9` are selected. -/
theorem construct_output_table_selection (preds : List ℚ) (cutoff : ℚ)
    (lens : List Nat) (idx : Nat) (hidx : idx < lens.sum) :
    (∀ i, i ∈ topkIdxs preds (countAbove preds cutoff) ↔
      (i < preds.length ∧ cutoff < preds.getD i 0)) ∧
    ((lens.take (rowOfFlat lens idx)).sum ≤ idx ∧
      idx < (lens.take (rowOfFlat lens idx + 1)).sum ∧
      offsetOfFlat lens idx = idx - (lens.take (rowOfFlat lens idx)).sum) ∧
    (countAbove [0.1, 0.2, 0.9, 0.05] 0.15 = 2 ∧
      topkIdxs [0.1, 0.2, 0.9, 0.05] (countAbove [0.1, 0.2, 0.9, 0.05] 0.15) = [2, 1]) := by
  refine ⟨?selection, ?resolution, ?ex⟩
  case selection =>
    intro i
    set z := preds.zip (List.range preds.length) with hz
    set s := z.insertionSort descScore with hsdef
    have hsort : s.Sorted descScore := List.sorted_insertionSort descScore z
    have hperm : s.Perm z := List.perm_insertionSort descScore z
    set P : ℚ × Nat → Bool := fun a => decide (cutoff < a.1) with hP
    have hk : s.countP P = countAbove preds cutoff := by
      rw [hperm.countP_eq, hP, countAbove]
      have hcomp : (fun a : ℚ × Nat => decide (cutoff < a.1)) =
          (fun p : ℚ => decide (cutoff < p)) ∘ Prod.fst := rfl
      rw [hcomp, ← List.countP_map, hz, List.map_fst_zip _ _ (by simp)]
    have htc := sorted_take_countP descScore P
      (fun a b hr hb => by
        simp only [hP, decide_eq_true_eq] at hb ⊢
        exact lt_of_lt_of_le hb hr) s hsort
    rw [hk] at htc
    constructor
    · intro hi
      rw [topkIdxs, ← hz, ← hsdef, ← List.map_take] at hi
      rcases List.mem_map.mp hi with ⟨a, ha, hai⟩
      have hPa := htc.1 a ha
      have haz : a ∈ z := hperm.mem_iff.mp (List.mem_of_mem_take ha)
      rcases mem_zip_range preds a (hz ▸ haz) with ⟨hlt, hfst⟩
      subst hai
      simp only [hP, decide_eq_true_eq] at hPa
      rw [hfst] at hPa
      exact ⟨hlt, hPa⟩
    · rintro ⟨hlt, hsc⟩
      have hmem : ((preds.getD i 0, i) : ℚ × Nat) ∈ z := by
        rw [hz]
        rw [List.mem_iff_getElem]
        refine ⟨i, ?_, ?_⟩
        · simp only [List.length_zip, List.length_range, min_self]
          exact hlt
        · rw [List.getElem_zip, List.getElem_range, List.getD_eq_getElem preds 0 hlt]
      have hmems : ((preds.getD i 0, i) : ℚ × Nat) ∈ s := hperm.mem_iff.mpr hmem
      have hsplit := List.take_append_drop (countAbove preds cutoff) s
      rw [← hsplit, List.mem_append] at hmems
      rcases hmems with hmems | hmems
      · rw [topkIdxs, ← hz, ← hsdef, ← List.map_take]
        exact List.mem_map.mpr ⟨(preds.getD i 0, i), hmems, rfl⟩
      · exact absurd hsc (of_decide_eq_false (htc.2 _ hmems))
  case resolution =>
    have hclen : (cumLens lens).length = lens.length + 1 := cumLens_length lens
    have hlast : (cumLens lens).getD lens.length 0 = lens.sum := by
      rw [cumLens_getD lens lens.length (le_refl _), List.take_length]
    have hex : ∃ x ∈ cumLens lens, (fun x => decide (idx < x)) x = true := by
      refine ⟨(cumLens lens).getD lens.length 0, ?_, by rw [hlast]; simpa using hidx⟩
      rw [List.getD_eq_getElem (cumLens lens) 0 (by omega)]
      exact List.getElem_mem _
    have hF : (cumLens lens).findIdx (fun x => decide (idx < x)) < (cumLens lens).length :=
      List.findIdx_lt_length_of_exists hex
    have htrue := findIdx_getD_true (fun x => decide (idx < x)) (cumLens lens) hF
    have hF0 : 0 < (cumLens lens).findIdx (fun x => decide (idx < x)) := by
      rcases Nat.eq_zero_or_pos ((cumLens lens).findIdx (fun x => decide (idx < x)))
        with h0 | h0
      · exfalso
        rw [h0, cumLens_getD lens 0 (by omega)] at htrue
        simp at htrue
      · exact h0
    have hhigh : idx <
        (cumLens lens).getD ((cumLens lens).findIdx (fun x => decide (idx < x))) 0 := by
      simpa using htrue
    have hlow :
        (cumLens lens).getD ((cumLens lens).findIdx (fun x => decide (idx < x)) - 1) 0
          ≤ idx := by
      have hfalse := findIdx_getD_false (fun x => decide (idx < x)) (cumLens lens)
        ((cumLens lens).findIdx (fun x => decide (idx < x)) - 1) (by omega) (by omega)
      simpa using hfalse
    have hrow : rowOfFlat lens idx =
        (cumLens lens).findIdx (fun x => decide (idx < x)) - 1 := rfl
    have hFle : (cumLens lens).findIdx (fun x => decide (idx < x)) ≤ lens.length := by
      omega
    refine ⟨?_, ?_, ?_⟩
    · rw [hrow, ← cumLens_getD lens _ (by omega)]
      exact hlow
    · rw [hrow]
      have hFsucc : (cumLens lens).findIdx (fun x => decide (idx < x)) - 1 + 1 =
          (cumLens lens).findIdx (fun x => decide (idx < x)) := by omega
      rw [hFsucc, ← cumLens_getD lens _ hFle]
      exact hhigh
    · rw [offsetOfFlat, hrow, cumLens_getD lens _ (by omega)]
  case ex =>
    constructor
    · norm_num [countAbove, List.countP, List.countP.go]
    · norm_num [countAbove, List.countP, List.countP.go, topkIdxs, List.insertionSort,
        List.orderedInsert, descScore, List.range, List.range.loop]

theorem construct_output_table_selection_witness :
    ((∀ i, i ∈ topkIdxs [0.3, 0.6] (countAbove [0.3, 0.6] 0.5) ↔
      (i < ([0.3, 0.6] : List ℚ).length ∧ (0.5 : ℚ) < [0.3, 0.6].getD i 0)) ∧
    (([4, 7] : List Nat).take (rowOfFlat [4, 7] 5)).sum ≤ 5 ∧
      5 < (([4, 7] : List Nat).take (rowOfFlat [4, 7] 5 + 1)).sum ∧
      offsetOfFlat [4, 7] 5 = 5 - (([4, 7] : List Nat).take (rowOfFlat [4, 7] 5)).sum ∧
    (countAbove [0.1, 0.2, 0.9, 0.05] 0.15 = 2 ∧
      topkIdxs [0.1, 0.2, 0.9, 0.05] (countAbove [0.1, 0.2, 0.9, 0.05] 0.15) = [2, 1])) := by
  have h := construct_output_table_selection [0.3, 0.6] 0.5 [4, 7] 5 (by norm_num)
  exact ⟨h.1, h.2.1.1, h.2.1.2.1, h.2.1.2.2, h.2.2⟩

/-! ## ORFClassifier (processing.py, lines 278-321)

The per-row `if/elif` chain assigning `ORF_type`, followed by the post-hoc
`df_out.loc[df_out["tr_biotype"] == b"lncRNA", "ORF_type"] = "lncRNA-ORF"`
override.  `shares_TIS_coord` / `shares_TTS_coord` stand for
`row["TIS_coord"] in TIS_coords` / `row["TTS_coord"] in TTS_coords`. -/

/-- The `if/elif` classification chain of `construct_output_table`. -/
def orf_type_label (canTISidx canTTSidx TISpos TTSpos : Int)
    (sharesTIScoord sharesTTScoord : Bool) : String :=
  if canTISidx ≠ -1 then
    if canTISidx = TISpos - 1 then "annotated CDS"
    else if TISpos > canTTSidx + 1 then "dORF"
    else if TTSpos < canTISidx + 1 then "uORF"
    else if TISpos < canTISidx + 1 then
      if TTSpos = canTTSidx + 1 then "N-terminal extension" else "uoORF"
    else if TTSpos > canTTSidx + 1 then "doORF"
    else if TTSpos = canTTSidx + 1 then "N-terminal truncation" else "intORF"
  else if sharesTIScoord || sharesTTScoord then "CDS variant"
  else "other"

/-- The final `ORF_type` after the lncRNA override (applied to the whole
column after the chain, hence taking precedence over every chain label). -/
def final_orf_type (biotype : String) (canTISidx canTTSidx TISpos TTSpos : Int)
    (sharesTIScoord sharesTTScoord : Bool) : String :=
  if biotype = "lncRNA" then "lncRNA-ORF"
  else orf_type_label canTISidx canTTSidx TISpos TTSpos sharesTIScoord sharesTTScoord

set_option maxHeartbeats 3200000 in
/-- C3: the classifier assigns exactly one label by first matching rule, in
the exact precedence order of the chain (`pos = offset + 1` throughout): with
a canonical TIS, `annotated CDS` iff TIS pos equals canonical TIS pos, `dORF`
iff additionally TIS pos exceeds canonical TTS pos, and so on down the chain;
without a canonical TIS, `CDS variant` iff the ORF shares a TIS or TTS
coordinate with some canonical record, else `other`; and any ORF on an lncRNA
transcript is finally relabelled `lncRNA-ORF` regardless. -/
theorem final_orf_type_precedence (biotype : String)
    (canTISidx canTTSidx TISpos TTSpos : Int) (sTIS sTTS : Bool) :
    (biotype = "lncRNA" →
      final_orf_type biotype canTISidx canTTSidx TISpos TTSpos sTIS sTTS = "lncRNA-ORF") ∧
    (biotype ≠ "lncRNA" → canTISidx = -1 →
      final_orf_type biotype canTISidx canTTSidx TISpos TTSpos sTIS sTTS =
        (if sTIS || sTTS then "CDS variant" else "other")) ∧
    (biotype ≠ "lncRNA" → canTISidx ≠ -1 →
      ((final_orf_type biotype canTISidx canTTSidx TISpos TTSpos sTIS sTTS = "annotated CDS" ↔
          TISpos = canTISidx + 1) ∧
       (final_orf_type biotype canTISidx canTTSidx TISpos TTSpos sTIS sTTS = "dORF" ↔
          ¬(TISpos = canTISidx + 1) ∧ canTTSidx + 1 < TISpos) ∧
       (final_orf_type biotype canTISidx canTTSidx TISpos TTSpos sTIS sTTS = "uORF" ↔
          ¬(TISpos = canTISidx + 1) ∧ ¬(canTTSidx + 1 < TISpos) ∧ TTSpos < canTISidx + 1) ∧
       (final_orf_type biotype canTISidx canTTSidx TISpos TTSpos sTIS sTTS = "N-terminal extension" ↔
          ¬(TISpos = canTISidx + 1) ∧ ¬(canTTSidx + 1 < TISpos) ∧ ¬(TTSpos < canTISidx + 1) ∧
            TISpos < canTISidx + 1 ∧ TTSpos = canTTSidx + 1) ∧
       (final_orf_type biotype canTISidx canTTSidx TISpos TTSpos sTIS sTTS = "uoORF" ↔
          ¬(TISpos = canTISidx + 1) ∧ ¬(canTTSidx + 1 < TISpos) ∧ ¬(TTSpos < canTISidx + 1) ∧
            TISpos < canTISidx + 1 ∧ ¬(TTSpos = canTTSidx + 1)) ∧
       (final_orf_type biotype canTISidx canTTSidx TISpos TTSpos sTIS sTTS = "doORF" ↔
          ¬(TISpos = canTISidx + 1) ∧ ¬(canTTSidx + 1 < TISpos) ∧ ¬(TTSpos < canTISidx + 1) ∧
            ¬(TISpos < canTISidx + 1) ∧ canTTSidx + 1 < TTSpos) ∧
       (final_orf_type biotype canTISidx canTTSidx TISpos TTSpos sTIS sTTS = "N-terminal truncation" ↔
          ¬(TISpos = canTISidx + 1) ∧ ¬(canTTSidx + 1 < TISpos) ∧ ¬(TTSpos < canTISidx + 1) ∧
            ¬(TISpos < canTISidx + 1) ∧ ¬(canTTSidx + 1 < TTSpos) ∧ TTSpos = canTTSidx + 1) ∧
       (final_orf_type biotype canTISidx canTTSidx TISpos TTSpos sTIS sTTS = "intORF" ↔
          ¬(TISpos = canTISidx + 1) ∧ ¬(canTTSidx + 1 < TISpos) ∧ ¬(TTSpos < canTISidx + 1) ∧
            ¬(TISpos < canTISidx + 1) ∧ ¬(canTTSidx + 1 < TTSpos) ∧ ¬(TTSpos = canTTSidx + 1)))) := by
  refine ⟨?_, ?_, ?_⟩
  · intro hb
    rw [final_orf_type, if_pos hb]
  · intro hb hc
    rw [final_orf_type, if_neg hb, orf_type_label, if_neg (by simp [hc])]
  · intro hb hc
    refine ⟨?_, ?_, ?_, ?_, ?_, ?_, ?_, ?_⟩ <;>
      (rw [final_orf_type, if_neg hb, orf_type_label, if_pos hc]; split_ifs <;> simp <;> omega)

theorem final_orf_type_precedence_witness :
    final_orf_type "protein_coding" 100 400 5 10 false false = "uORF" :=
  (((final_orf_type_precedence "protein_coding" 100 400 5 10 false false).2.2
      (by decide) (by decide)).2.2.1).mpr (by omega)

/-! ## CoordinateMapper (processing.py, lines 201-217)

`TIS_exon = np.sum(TIS_idx >= row.exon_idxs) // 2 + 1`,
`TIS_exon_idx = TIS_idx - row.exon_idxs[(TIS_exon - 1) * 2]`, and the genome
coordinate is `exon_coords[(TIS_exon-1)*2] + TIS_exon_idx` on the `+` strand
and `exon_coords[(TIS_exon-1)*2+1] - TIS_exon_idx` on the `-` strand.  The
identical code maps the TTS offset (lines 210-215). -/

/-- `np.sum(offset >= exon_idxs) // 2 + 1`: the 1-based exon number. -/
def exonOfOffset (exonIdxs : List Nat) (offset : Nat) : Nat :=
  (exonIdxs.countP (fun b => decide (b ≤ offset))) / 2 + 1

/-- `offset - exon_idxs[(exon - 1) * 2]`: offset within the enclosing exon. -/
def exonRelOffset (exonIdxs : List Nat) (offset : Nat) : Nat :=
  offset - exonIdxs.getD ((exonOfOffset exonIdxs offset - 1) * 2) 0

/-- Strand-dependent genome coordinate of a transcript-relative offset. -/
def coordOfOffset (strandPlus : Bool) (exonIdxs exonCoords : List Nat)
    (offset : Nat) : Int :=
  if strandPlus then
    (exonCoords.getD ((exonOfOffset exonIdxs offset - 1) * 2) 0 : Int) +
      (exonRelOffset exonIdxs offset : Nat)
  else
    (exonCoords.getD ((exonOfOffset exonIdxs offset - 1) * 2 + 1) 0 : Int) -
      (exonRelOffset exonIdxs offset : Nat)

lemma countP_le_offset (exonIdxs : List Nat) (e offset : Nat)
    (hsorted : exonIdxs.Sorted (· ≤ ·)) (h2e : 2 * e + 1 < exonIdxs.length)
    (hlo : exonIdxs.getD (2 * e) 0 ≤ offset)
    (hhi : offset < exonIdxs.getD (2 * e + 1) 0) :
    exonIdxs.countP (fun b => decide (b ≤ offset)) = 2 * e + 1 := by
  have hpw := List.pairwise_iff_getElem.mp hsorted
  rw [List.getD_eq_getElem exonIdxs 0 (by omega)] at hlo
  rw [List.getD_eq_getElem exonIdxs 0 h2e] at hhi
  have hsplit := List.take_append_drop (2 * e + 1) exonIdxs
  conv_lhs => rw [← hsplit]
  rw [List.countP_append]
  have hlen_take : (exonIdxs.take (2 * e + 1)).length = 2 * e + 1 := by
    rw [List.length_take]
    omega
  have h1 : (exonIdxs.take (2 * e + 1)).countP (fun b => decide (b ≤ offset)) =
      2 * e + 1 := by
    rw [List.countP_eq_length.mpr, hlen_take]
    intro a ha
    rcases List.mem_iff_getElem.mp ha with ⟨j, hj, hja⟩
    rw [List.getElem_take] at hja
    have hj' : j < 2 * e + 1 := by
      rw [hlen_take] at hj
      exact hj
    subst hja
    simp only [decide_eq_true_eq]
    have hle : exonIdxs[j] ≤ exonIdxs[2 * e] := by
      rcases Nat.lt_or_ge j (2 * e) with hlt | hge
      · exact hpw j (2 * e) (by omega) (by omega) hlt
      · have hje : j = 2 * e := by omega
        subst hje
        exact le_refl _
    omega
  have h2 : (exonIdxs.drop (2 * e + 1)).countP (fun b => decide (b ≤ offset)) = 0 := by
    rw [List.countP_eq_zero]
    intro a ha
    rcases List.mem_iff_getElem.mp ha with ⟨j, hj, hja⟩
    have hjlen : 2 * e + 1 + j < exonIdxs.length := by
      rw [List.length_drop] at hj
      omega
    rw [List.getElem_drop] at hja
    subst hja
    simp only [decide_eq_true_eq]
    have hge : exonIdxs[2 * e + 1] ≤ exonIdxs[2 * e + 1 + j] := by
      rcases Nat.eq_zero_or_pos j with hj0 | hj0
      · subst hj0
        simp
      · exact hpw (2 * e + 1) (2 * e + 1 + j) (by omega) hjlen (by omega)
    omega
  rw [h1, h2]

/-- C4: for an offset enclosed by exon `e` (0-based) of a sorted exon-offset
table — `exon_idxs[2e] ≤ offset < exon_idxs[2e+1]` — the mapper reports the
1-based exon number `e + 1`, and computes the genome coordinate as the exon's
start genome coordinate plus (offset − exon start transcript-offset) on the
`+` strand, and the exon's end genome coordinate minus the same difference on
the `-` strand; on the worked example (`exon_idxs=[0,100]`,
`exon_coords=[1000,1100]`, `+`, offset 10) it yields coordinate 1010, exon 1. -/
theorem coordinate_mapper_correct (exonIdxs exonCoords : List Nat) (e offset : Nat)
    (hsorted : exonIdxs.Sorted (· ≤ ·)) (h2e : 2 * e + 1 < exonIdxs.length)
    (hlo : exonIdxs.getD (2 * e) 0 ≤ offset)
    (hhi : offset < exonIdxs.getD (2 * e + 1) 0) :
    exonOfOffset exonIdxs offset = e + 1 ∧
    coordOfOffset true exonIdxs exonCoords offset =
      (exonCoords.getD (2 * e) 0 : Int) + ((offset - exonIdxs.getD (2 * e) 0 : Nat) : Int) ∧
    coordOfOffset false exonIdxs exonCoords offset =
      (exonCoords.getD (2 * e + 1) 0 : Int) - ((offset - exonIdxs.getD (2 * e) 0 : Nat) : Int) ∧
    (exonOfOffset [0, 100] 10 = 1 ∧
      coordOfOffset true [0, 100] [1000, 1100] 10 = 1010) := by
  have hcount := countP_le_offset exonIdxs e offset hsorted h2e hlo hhi
  have hexon : exonOfOffset exonIdxs offset = e + 1 := by
    rw [exonOfOffset, hcount]
    omega
  have hidx : (exonOfOffset exonIdxs offset - 1) * 2 = 2 * e := by
    rw [hexon]
    omega
  have hrel : exonRelOffset exonIdxs offset = offset - exonIdxs.getD (2 * e) 0 := by
    rw [exonRelOffset, hidx]
  refine ⟨hexon, ?_, ?_, by decide, by decide⟩
  · rw [coordOfOffset, if_pos rfl, hidx, hrel]
  · rw [coordOfOffset, if_neg (by simp), hidx, hrel]

theorem coordinate_mapper_correct_witness :
    exonOfOffset [0, 100, 100, 250] 120 = 2 ∧
    coordOfOffset true [0, 100, 100, 250] [1000, 1100, 2000, 2150] 120 =
      (([1000, 1100, 2000, 2150] : List Nat).getD 2 0 : Int) +
        ((120 - ([0, 100, 100, 250] : List Nat).getD 2 0 : Nat) : Int) ∧
    coordOfOffset false [0, 100, 100, 250] [1000, 1100, 2000, 2150] 120 =
      (([1000, 1100, 2000, 2150] : List Nat).getD 3 0 : Int) -
        ((120 - ([0, 100, 100, 250] : List Nat).getD 2 0 : Nat) : Int) ∧
    (exonOfOffset [0, 100] 10 = 1 ∧
      coordOfOffset true [0, 100] [1000, 1100] 10 = 1010) :=
  coordinate_mapper_correct [0, 100, 100, 250] [1000, 1100, 2000, 2150] 1 120
    (by decide) (by decide) (by decide) (by decide)

/-! ## TableAssembler row filters (processing.py, lines 329-335)

```
if correction and remove_duplicates:
    df_out = df_out.drop_duplicates("ORF_id")
if exclude_invalid_TTS:
    df_out = df_out[df_out["TTS_on_transcript"]]
df_out = df_out[df_out["ORF_len"] > min_ORF_len]
df_out = df_out[df_out["start_codon"].str.contains(start_codons)]
```

Rows are modelled by the four columns these filters read; the regular
expression match `str.contains(start_codons)` is an opaque Boolean predicate
parameter on the 3-letter start codon. -/

structure ORFRow where
  ORF_id : String
  TTS_on_transcript : Bool
  ORF_len : Nat
  start_codon : String
deriving DecidableEq

/-- `drop_duplicates("ORF_id")`: keep the first row of each ORF_id. -/
def dedupORFid : List String → List ORFRow → List ORFRow
  | _, [] => []
  | seen, r :: rs =>
    if r.ORF_id ∈ seen then dedupORFid seen rs
    else r :: dedupORFid (r.ORF_id :: seen) rs

def drop_duplicates (rows : List ORFRow) : List ORFRow := dedupORFid [] rows

/-- The four row filters of `construct_output_table`, in source order. -/
def applyRowFilters (correction remove_duplicates exclude_invalid_TTS : Bool)
    (min_ORF_len : Nat) (startCodonMatch : String → Bool)
    (rows : List ORFRow) : List ORFRow :=
  let r1 := if correction && remove_duplicates then drop_duplicates rows else rows
  let r2 := if exclude_invalid_TTS then r1.filter (fun r => r.TTS_on_transcript) else r1
  let r3 := r2.filter (fun r => decide (min_ORF_len < r.ORF_len))
  r3.filter (fun r => startCodonMatch r.start_codon)

lemma dedupORFid_spec : ∀ (rows : List ORFRow) (seen : List String),
    ((dedupORFid seen rows).map (fun r => r.ORF_id)).Nodup ∧
    ∀ r ∈ dedupORFid seen rows, r.ORF_id ∉ seen := by
  intro rows
  induction rows with
  | nil => intro seen; simp [dedupORFid]
  | cons r rs ih =>
    intro seen
    rw [dedupORFid]
    by_cases hmem : r.ORF_id ∈ seen
    · rw [if_pos hmem]
      exact ih seen
    · rw [if_neg hmem]
      refine ⟨?_, ?_⟩
      · rw [List.map_cons, List.nodup_cons]
        refine ⟨?_, (ih (r.ORF_id :: seen)).1⟩
        intro hcontra
        rcases List.mem_map.mp hcontra with ⟨x, hx, hxid⟩
        have := (ih (r.ORF_id :: seen)).2 x hx
        rw [hxid] at this
        exact this (List.mem_cons_self _ _)
      · intro x hx
        rcases List.mem_cons.mp hx with hx | hx
        · subst hx
          exact hmem
        · intro hxseen
          exact (ih (r.ORF_id :: seen)).2 x hx (List.mem_cons_of_mem _ hxseen)

/-- C6: the filters are applied in exactly the order deduplication (only when
`correction` and `remove_duplicates` are both enabled), invalid-TTS removal
(when enabled), strict minimum length (`ORF_len > min_ORF_len`), start-codon
pattern; membership in the result forces all three predicates; deduplication
leaves pairwise-distinct ORF_ids; and the boundary row with
`ORF_len = min_ORF_len = 15` is excluded. -/
theorem construct_output_table_filter_order
    (correction remove_duplicates exclude_invalid_TTS : Bool)
    (min_ORF_len : Nat) (m : String → Bool) (rows : List ORFRow) :
    (applyRowFilters correction remove_duplicates exclude_invalid_TTS min_ORF_len m rows =
      (if correction && remove_duplicates then drop_duplicates rows else rows).filter
        (fun r => (!exclude_invalid_TTS || r.TTS_on_transcript) &&
          (decide (min_ORF_len < r.ORF_len) && m r.start_codon))) ∧
    (∀ r ∈ applyRowFilters correction remove_duplicates exclude_invalid_TTS
        min_ORF_len m rows,
      min_ORF_len < r.ORF_len ∧ m r.start_codon = true ∧
        (exclude_invalid_TTS = true → r.TTS_on_transcript = true)) ∧
    ((drop_duplicates rows).map (fun r => r.ORF_id)).Nodup ∧
    applyRowFilters false false true 15 (fun _ => true)
      [⟨"tr1_5", true, 15, "ATG"⟩] = [] := by
  have h1 : applyRowFilters correction remove_duplicates exclude_invalid_TTS
      min_ORF_len m rows =
      (if correction && remove_duplicates then drop_duplicates rows else rows).filter
        (fun r => (!exclude_invalid_TTS || r.TTS_on_transcript) &&
          (decide (min_ORF_len < r.ORF_len) && m r.start_codon)) := by
    unfold applyRowFilters
    cases exclude_invalid_TTS with
    | false =>
      simp only [Bool.false_eq_true, if_false, List.filter_filter, Bool.not_false,
        Bool.true_or, Bool.true_and]
      apply List.filter_congr
      intro x _
      cases decide (min_ORF_len < x.ORF_len) <;> cases m x.start_codon <;> simp
    | true =>
      simp only [if_true, List.filter_filter, Bool.not_true, Bool.false_or]
      apply List.filter_congr
      intro x _
      cases x.TTS_on_transcript <;> cases decide (min_ORF_len < x.ORF_len) <;>
        cases m x.start_codon <;> simp
  refine ⟨h1, ?_, (dedupORFid_spec rows []).1, by decide⟩
  intro r hr
  rw [h1] at hr
  have hpred := (List.mem_filter.mp hr).2
  simp only [Bool.and_eq_true, Bool.or_eq_true, Bool.not_eq_true',
    decide_eq_true_eq] at hpred
  refine ⟨hpred.2.1, hpred.2.2, ?_⟩
  intro hex
  rcases hpred.1 with hfalse | htts
  · rw [hex] at hfalse
    exact absurd hfalse (by simp)
  · exact htts

theorem construct_output_table_filter_order_witness :
    4 < (⟨"a_1", true, 20, "ATG"⟩ : ORFRow).ORF_len ∧
    (fun _ : String => true) (⟨"a_1", true, 20, "ATG"⟩ : ORFRow).start_codon = true ∧
    (true = true → (⟨"a_1", true, 20, "ATG"⟩ : ORFRow).TTS_on_transcript = true) :=
  (construct_output_table_filter_order false false true 4 (fun _ => true)
    [⟨"a_1", true, 20, "ATG"⟩]).2.1 ⟨"a_1", true, 20, "ATG"⟩ (by decide)

/-! ## Output ranking (processing.py, lines 231-232)

`df_out = df_out.sort_values("output", ascending=False)` followed by
`df_out["output_rank"] = np.arange(len(df_out))`.  pandas `sort_values` with
its default `kind='quicksort'` guarantees a permutation ordered by descending
score but **not** stability (only `kind='mergesort'/'stable'` are stable), so
the sort is embedded as the relation `sortsDesc` admitting every descending
reordering; the rank of a row is its position in the sorted order. -/

structure ScoredRow where
  output : ℚ
  pos : Nat
deriving DecidableEq

/-- Descending-score order on rows. -/
def descRow (a b : ScoredRow) : Prop := b.output ≤ a.output

instance : DecidableRel descRow := fun a b => inferInstanceAs (Decidable (b.output ≤ a.output))

instance : IsRefl ScoredRow descRow := ⟨fun _ => le_refl _⟩

/-- The pandas `sort_values("output", ascending=False)` contract: `out` is a
permutation of the rows, sorted by non-increasing score. -/
def sortsDesc (rows out : List ScoredRow) : Prop :=
  out.Perm rows ∧ out.Sorted descRow

/-- `np.arange(len(df_out))`: ranks are assigned positionally after sorting. -/
def outputRanks (out : List ScoredRow) : List Nat := List.range out.length

/-- Rank order respects the original order on equal scores (the claimed
stability): whenever one row is ranked before another with the same score, it
came first in the original order. -/
def tieStable (out : List ScoredRow) : Prop :=
  out.Pairwise (fun a b => a.output = b.output → a.pos ≤ b.pos)

instance : DecidablePred tieStable := fun out =>
  inferInstanceAs (Decidable (out.Pairwise _))

/-- C7 (amended): for any output the sort contract admits, the assigned ranks
are exactly `0 .. N-1` (contiguous, no gaps), scores are non-increasing in
rank, and rank 0 holds a maximum score.  The tie order among equal scores is
whatever the (unstable) quicksort produced, not necessarily the original
order. -/
theorem output_rank_properties (rows out : List ScoredRow) (h : sortsDesc rows out) :
    outputRanks out = List.range rows.length ∧
    (∀ i j (hi : i < out.length) (hj : j < out.length), i ≤ j →
      (out.get ⟨j, hj⟩).output ≤ (out.get ⟨i, hi⟩).output) ∧
    (∀ r ∈ rows, ∀ h0 : 0 < out.length, r.output ≤ (out.get ⟨0, h0⟩).output) := by
  rcases h with ⟨hperm, hsort⟩
  refine ⟨?_, ?_, ?_⟩
  · rw [outputRanks, hperm.length_eq]
  · intro i j hi hj hij
    exact hsort.rel_get_of_le hij
  · intro r hr h0
    have hrout : r ∈ out := hperm.mem_iff.mpr hr
    rcases List.mem_iff_getElem.mp hrout with ⟨j, hj, hjr⟩
    rcases Nat.eq_zero_or_pos j with hj0 | hj0
    · subst hj0
      rw [← hjr]
      exact le_refl _
    · have := hsort.rel_get_of_le (a := ⟨0, h0⟩) (b := ⟨j, hj⟩) (by simp)
      rw [descRow] at this
      rw [← hjr]
      simpa using this

theorem output_rank_properties_witness :
    outputRanks [⟨3, 1⟩, ⟨1, 0⟩] = List.range ([⟨1, 0⟩, ⟨3, 1⟩] : List ScoredRow).length ∧
    (∀ i j (hi : i < ([⟨3, 1⟩, ⟨1, 0⟩] : List ScoredRow).length)
      (hj : j < ([⟨3, 1⟩, ⟨1, 0⟩] : List ScoredRow).length), i ≤ j →
      (([⟨3, 1⟩, ⟨1, 0⟩] : List ScoredRow).get ⟨j, hj⟩).output ≤
        (([⟨3, 1⟩, ⟨1, 0⟩] : List ScoredRow).get ⟨i, hi⟩).output) ∧
    (∀ r ∈ ([⟨1, 0⟩, ⟨3, 1⟩] : List ScoredRow),
      ∀ h0 : 0 < ([⟨3, 1⟩, ⟨1, 0⟩] : List ScoredRow).length,
      r.output ≤ (([⟨3, 1⟩, ⟨1, 0⟩] : List ScoredRow).get ⟨0, h0⟩).output) :=
  output_rank_properties [⟨1, 0⟩, ⟨3, 1⟩] [⟨3, 1⟩, ⟨1, 0⟩]
    ⟨by decide, by decide⟩

/-- C7 (counterexample): the claim additionally asserts stable tie-breaking by
original order, but the sort contract (pandas default quicksort is unstable)
admits the reversal of two equal-score rows: `[⟨1,1⟩, ⟨1,0⟩]` is a valid sort
output for input `[⟨1,0⟩, ⟨1,1⟩]` yet ranks the originally-second row first. -/
theorem output_rank_claim_counterexample :
    sortsDesc [⟨1, 0⟩, ⟨1, 1⟩] [⟨1, 1⟩, ⟨1, 0⟩] ∧
    ¬ tieStable [⟨1, 1⟩, ⟨1, 0⟩] := by
  constructor
  · exact ⟨by decide, by decide⟩
  · intro hcontra
    rw [tieStable, List.pairwise_cons] at hcontra
    have := hcontra.1 ⟨1, 0⟩ (by decide) rfl
    simp at this

/-! ## TISCorrector (processing.py, lines 178-193)

When the correction pass is enabled and `tr_seq[TIS:TIS+3] != [0,1,3]`
(the token encoding of `ATG`), the code scans the window
`tr_seq[max(0, TIS - 3*dist) : TIS + 3*(dist+1)]` for exact `ATG` occurrences,
shifts the found window positions to signed offsets relative to the TIS
(`- min(TIS_idx, dist*3)`), keeps the codon-aligned ones (`offset % 3 == 0`),
and, if any remain, relocates the TIS by the offset of minimum absolute value
(`np.argmin` keeps the first minimiser) and stores that offset — a nucleotide
count, multiple of 3 — in `correction`. -/

/-- The correction window `tr_seq[max(0, TIS-3*dist) : TIS + 3*(dist+1)]`. -/
def corrWindow (trSeq : List Nat) (tisIdx dist : Nat) : List Nat :=
  (trSeq.drop (tisIdx - dist * 3)).take (tisIdx + (dist + 1) * 3 - (tisIdx - dist * 3))

/-- The codon-aligned signed nucleotide offsets (relative to the TIS) of exact
`ATG` occurrences within the correction window. -/
def alignedMatches (trSeq : List Nat) (tisIdx dist : Nat) : List Int :=
  (((List.range (corrWindow trSeq tisIdx dist).length).filter
      (fun x => decide (((corrWindow trSeq tisIdx dist).drop x).take 3 = [0, 1, 3]))).map
    (fun x : Nat => ((x : Int) - ((min tisIdx (dist * 3) : Nat) : Int)))).filter
    (fun o => decide (o % 3 = 0))

/-- `matches[np.argmin(abs(matches))]`: the first offset of minimum absolute
value. -/
def argminAbs : Int → List Int → Int
  | m, [] => m
  | m, x :: xs => if x.natAbs < m.natAbs then argminAbs x xs else argminAbs m xs

/-- The TIS-correction pass: returns the (possibly relocated) TIS index and
the recorded `correction` field (`none` when it stays unset, i.e. `np.nan`). -/
def tisCorrection (trSeq : List Nat) (tisIdx dist : Nat) : Int × Option Int :=
  if (trSeq.drop tisIdx).take 3 = [0, 1, 3] then ((tisIdx : Int), none)
  else
    match alignedMatches trSeq tisIdx dist with
    | [] => ((tisIdx : Int), none)
    | m :: ms => ((tisIdx : Int) + argminAbs m ms, some (argminAbs m ms))

lemma corrWindow_drop_take (trSeq : List Nat) (tisIdx dist x : Nat) :
    ((corrWindow trSeq tisIdx dist).drop x).take 3 =
      (trSeq.drop ((tisIdx - dist * 3) + x)).take
        (min 3 ((tisIdx + (dist + 1) * 3 - (tisIdx - dist * 3)) - x)) := by
  rw [corrWindow, List.drop_take, List.drop_drop, List.take_take]

lemma corrWindow_length (trSeq : List Nat) (tisIdx dist : Nat) :
    (corrWindow trSeq tisIdx dist).length =
      min (tisIdx + (dist + 1) * 3 - (tisIdx - dist * 3))
        (trSeq.length - (tisIdx - dist * 3)) := by
  rw [corrWindow, List.length_take, List.length_drop]

lemma argminAbs_spec : ∀ (ms : List Int) (m : Int),
    argminAbs m ms ∈ m :: ms ∧
    ∀ o ∈ m :: ms, (argminAbs m ms).natAbs ≤ o.natAbs := by
  intro ms
  induction ms with
  | nil =>
    intro m
    refine ⟨List.mem_cons_self _ _, ?_⟩
    intro o ho
    rcases List.mem_cons.mp ho with ho | ho
    · subst ho; exact le_refl _
    · simp at ho
  | cons x xs ih =>
    intro m
    rw [argminAbs]
    by_cases hlt : x.natAbs < m.natAbs
    · rw [if_pos hlt]
      refine ⟨?_, ?_⟩
      · rcases List.mem_cons.mp (ih x).1 with h | h
        · rw [h]; exact List.mem_cons_of_mem _ (List.mem_cons_self _ _)
        · exact List.mem_cons_of_mem _ (List.mem_cons_of_mem _ h)
      · intro o ho
        rcases List.mem_cons.mp ho with ho | ho
        · subst ho
          exact le_trans ((ih x).2 x (List.mem_cons_self _ _)) (Nat.le_of_lt hlt)
        · exact (ih x).2 o ho
    · rw [if_neg hlt]
      refine ⟨?_, ?_⟩
      · rcases List.mem_cons.mp (ih m).1 with h | h
        · rw [h]; exact List.mem_cons_self _ _
        · exact List.mem_cons_of_mem _ (List.mem_cons_of_mem _ h)
      · intro o ho
        rcases List.mem_cons.mp ho with ho | ho
        · rw [ho]
          exact (ih m).2 m (List.mem_cons_self _ _)
        · rcases List.mem_cons.mp ho with ho | ho
          · rw [ho]
            exact le_trans ((ih m).2 m (List.mem_cons_self _ _)) (by omega)
          · exact (ih m).2 o (List.mem_cons_of_mem _ ho)

lemma mem_alignedMatches (trSeq : List Nat) (tisIdx dist : Nat) (o : Int) :
    o ∈ alignedMatches trSeq tisIdx dist ↔
      (o % 3 = 0 ∧ ∃ p : Nat, o = (p : Int) - (tisIdx : Int) ∧
        tisIdx - dist * 3 ≤ p ∧ p + 3 ≤ tisIdx + (dist + 1) * 3 ∧
        p + 3 ≤ trSeq.length ∧ (trSeq.drop p).take 3 = [0, 1, 3]) := by
  constructor
  · intro ho
    rw [alignedMatches, List.mem_filter] at ho
    rcases ho with ⟨homap, hmod⟩
    simp only [decide_eq_true_eq] at hmod
    rcases List.mem_map.mp homap with ⟨x, hxmem, hxo⟩
    rw [List.mem_filter, List.mem_range] at hxmem
    rcases hxmem with ⟨hxlen, hxatg⟩
    rw [corrWindow_length] at hxlen
    simp only [decide_eq_true_eq] at hxatg
    rw [corrWindow_drop_take] at hxatg
    have hlen3 : ((trSeq.drop ((tisIdx - dist * 3) + x)).take
        (min 3 ((tisIdx + (dist + 1) * 3 - (tisIdx - dist * 3)) - x))).length = 3 := by
      rw [hxatg]
      rfl
    rw [List.length_take, List.length_drop] at hlen3
    refine ⟨hmod, (tisIdx - dist * 3) + x, ?_, by omega, by omega, by omega, ?_⟩
    · rw [← hxo]
      have hmin : min tisIdx (dist * 3) = tisIdx - (tisIdx - dist * 3) := by omega
      rw [hmin]
      push_cast
      omega
    · have h3 : min 3 ((tisIdx + (dist + 1) * 3 - (tisIdx - dist * 3)) - x) = 3 := by
        omega
      rw [h3] at hxatg
      exact hxatg
  · rintro ⟨hmod, p, hop, hplb, hpW, hpL, hatg⟩
    rw [alignedMatches, List.mem_filter]
    refine ⟨?_, by simpa using hmod⟩
    apply List.mem_map.mpr
    refine ⟨p - (tisIdx - dist * 3), ?_, ?_⟩
    · rw [List.mem_filter, List.mem_range, corrWindow_length]
      constructor
      · omega
      · simp only [decide_eq_true_eq]
        rw [corrWindow_drop_take]
        have hplbx : (tisIdx - dist * 3) + (p - (tisIdx - dist * 3)) = p := by omega
        rw [hplbx]
        have h3 : min 3 ((tisIdx + (dist + 1) * 3 - (tisIdx - dist * 3)) -
            (p - (tisIdx - dist * 3))) = 3 := by omega
        rw [h3]
        exact hatg
    · rw [hop]
      have hmin : min tisIdx (dist * 3) = tisIdx - (tisIdx - dist * 3) := by omega
      rw [hmin]
      omega

/-- C8 (amended): when the codon at the TIS is not `ATG`, the correction pass
leaves the TIS and the correction field untouched when no codon-aligned `ATG`
occurrence exists in the window, and otherwise relocates the TIS by the
occurrence offset of minimum absolute value and records that **signed
nucleotide distance (a multiple of 3, i.e. 3 × the codon shift)** in the
correction field; the occurrences are exactly the stride-3-aligned exact `ATG`
positions within the window of `dist` codons up/downstream (clipped at the
sequence bounds), so every recorded offset lies in `[-3·dist, 3·dist]`. -/
theorem tis_correction_behavior (trSeq : List Nat) (tisIdx dist : Nat)
    (hcodon : (trSeq.drop tisIdx).take 3 ≠ [0, 1, 3]) :
    (alignedMatches trSeq tisIdx dist = [] →
      tisCorrection trSeq tisIdx dist = ((tisIdx : Int), none)) ∧
    (∀ m ms, alignedMatches trSeq tisIdx dist = m :: ms →
      tisCorrection trSeq tisIdx dist =
        ((tisIdx : Int) + argminAbs m ms, some (argminAbs m ms)) ∧
      argminAbs m ms ∈ alignedMatches trSeq tisIdx dist ∧
      (∀ o ∈ alignedMatches trSeq tisIdx dist, (argminAbs m ms).natAbs ≤ o.natAbs)) ∧
    (∀ o, o ∈ alignedMatches trSeq tisIdx dist ↔
      (o % 3 = 0 ∧ ∃ p : Nat, o = (p : Int) - (tisIdx : Int) ∧
        tisIdx - dist * 3 ≤ p ∧ p + 3 ≤ tisIdx + (dist + 1) * 3 ∧
        p + 3 ≤ trSeq.length ∧ (trSeq.drop p).take 3 = [0, 1, 3])) ∧
    (∀ o ∈ alignedMatches trSeq tisIdx dist,
      -(3 * (dist : Int)) ≤ o ∧ o ≤ 3 * (dist : Int)) := by
  have hbranch : tisCorrection trSeq tisIdx dist =
      (match alignedMatches trSeq tisIdx dist with
        | [] => ((tisIdx : Int), none)
        | m :: ms => ((tisIdx : Int) + argminAbs m ms, some (argminAbs m ms))) := by
    rw [tisCorrection, if_neg hcodon]
  refine ⟨?_, ?_, fun o => mem_alignedMatches trSeq tisIdx dist o, ?_⟩
  · intro hempty
    rw [hbranch, hempty]
  · intro m ms hcons
    rw [hbranch, hcons]
    refine ⟨rfl, ?_, ?_⟩
    · exact (argminAbs_spec ms m).1
    · intro o ho
      exact (argminAbs_spec ms m).2 o ho
  · intro o ho
    rcases (mem_alignedMatches trSeq tisIdx dist o).mp ho with
      ⟨_, p, hop, hplb, hpW, _, _⟩
    constructor
    · rw [hop]
      omega
    · rw [hop]
      omega

theorem tis_correction_behavior_witness :
    tisCorrection [2, 2, 2, 0, 1, 3] 0 9 =
      ((0 : Int) + argminAbs 3 [], some (argminAbs 3 [])) ∧
    argminAbs 3 [] ∈ alignedMatches [2, 2, 2, 0, 1, 3] 0 9 ∧
    (∀ o ∈ alignedMatches [2, 2, 2, 0, 1, 3] 0 9,
      (argminAbs 3 []).natAbs ≤ o.natAbs) :=
  ((tis_correction_behavior [2, 2, 2, 0, 1, 3] 0 9 (by decide)).2.1) 3 [] (by decide)

/-- C8 (counterexample): the claim says the correction field records the
signed **codon**-distance; the code stores the nucleotide offset.  On sequence
`[2,2,2,0,1,3]` with TIS 0 and `dist` 9 the TIS is relocated one codon
downstream to position 3, and the recorded correction is `3` (nucleotides),
not the codon distance `1`. -/
theorem tis_correction_claim_counterexample :
    tisCorrection [2, 2, 2, 0, 1, 3] 0 9 = (3, some 3) ∧ (3 : Int) ≠ 1 := by
  constructor
  · decide
  · decide

/-! ## Zero qualifying predictions (processing.py, lines 121-126)

```
k = (preds > prob_cutoff).sum()
if k == 0:
    print(f"!-> No predictions with an output probability higher than {prob_cutoff}")
    return None
```

The function head is modelled with an explicit event trace: the diagnostic
print and the final `df_out.to_csv(...)` write are the only observable side
effects on the two control paths. -/

inductive TableEvent where
  | diagNoPredictions
  | wroteCSV
deriving DecidableEq

/-- Control head of `construct_output_table`: count `k`, bail out with a
diagnostic and `None` when `k = 0`, otherwise select and resolve the top-`k`
candidates and write the output table. -/
def construct_output_table (preds : List ℚ) (lens : List Nat) (prob_cutoff : ℚ) :
    Option (List (Nat × Nat)) × List TableEvent :=
  if preds.countP (fun p => decide (prob_cutoff < p)) = 0 then
    (none, [TableEvent.diagNoPredictions])
  else
    (some ((topkIdxs preds (preds.countP (fun p => decide (prob_cutoff < p)))).map
        (fun i => (rowOfFlat lens i, offsetOfFlat lens i))),
      [TableEvent.wroteCSV])

/-- C9: when no score strictly exceeds the cutoff, `construct_output_table`
returns `None` having emitted only the diagnostic: no candidate list is
produced, no output file is written, and no error is raised (the function
returns normally). -/
theorem construct_output_table_no_predictions (preds : List ℚ) (lens : List Nat)
    (cutoff : ℚ) (h : preds.countP (fun p => decide (cutoff < p)) = 0) :
    construct_output_table preds lens cutoff = (none, [TableEvent.diagNoPredictions]) ∧
    (construct_output_table preds lens cutoff).1 = none ∧
    TableEvent.wroteCSV ∉ (construct_output_table preds lens cutoff).2 := by
  have h1 : construct_output_table preds lens cutoff =
      (none, [TableEvent.diagNoPredictions]) := by
    rw [construct_output_table, if_pos h]
  refine ⟨h1, by rw [h1], by rw [h1]; simp⟩

theorem construct_output_table_no_predictions_witness :
    construct_output_table [0.1, 0.05] [2] 0.15 =
      (none, [TableEvent.diagNoPredictions]) :=
  (construct_output_table_no_predictions [0.1, 0.05] [2] 0.15
    (by norm_num [List.countP, List.countP.go])).1

/-! ## GTFEmitter stop-codon records (processing.py, lines 398-439)

For each output row, `csv_to_gtf` clips the start codon, the CDS body and the
stop codon against the exon table and emits one feature line per clipped part.
For a row whose `TTS_coord` is the sentinel `-1` the code sets
`stop_parts, stop_exons = np.empty(start_parts.shape), np.empty(start_exons.shape)`
— `np.empty` creates **uninitialised arrays of the given shape**, not empty
ones — so `len(stop_exons) = len(start_exons)` garbage stop-codon records are
still packed and emitted.

The helpers `find_distant_exon_coord` and `transcript_region_to_exons` live in
`util_functions.py`, which is not among the sources; they are modelled from
the specification below. -/

/-- Modelled from the spec: `find_distant_exon_coord` (in `util_functions.py`,
missing from the sources) derives the coordinate `d` nucleotides further in
transcript direction from genome coordinate `c`, stepping across exon
boundaries via the coordinate mapper; `+`-strand walk. -/
def stepPlusList : List (Int × Int) → Int → Int → Int
  | [], c, d => c + d
  | (s, e) :: rest, c, d =>
    if s ≤ c ∧ c ≤ e then
      (if c + d ≤ e then c + d
       else
        match rest with
        | [] => c + d
        | (s2, _) :: _ => stepPlusList rest s2 (d - (e - c) - 1))
    else stepPlusList rest c d

/-- Modelled from the spec: `-`-strand walk of `find_distant_exon_coord`
(transcript direction runs from each exon's end coordinate downwards). -/
def stepMinusList : List (Int × Int) → Int → Int → Int
  | [], c, d => c - d
  | (s, e) :: rest, c, d =>
    if s ≤ c ∧ c ≤ e then
      (if s ≤ c - d then c - d
       else
        match rest with
        | [] => c - d
        | (_, e2) :: _ => stepMinusList rest e2 (d - (c - s) - 1))
    else stepMinusList rest c d

/-- Modelled from the spec: `find_distant_exon_coord` dispatches on strand. -/
def find_distant_exon_coord (c d : Int) (strandPlus : Bool)
    (exons : List (Int × Int)) : Int :=
  if strandPlus then stepPlusList exons c d else stepMinusList exons c d

/-- Modelled from the spec: `transcript_region_to_exons` (in
`util_functions.py`, missing from the sources) clips the genomic interval
spanned by two coordinates against the exon table, producing one
(genomic start, genomic stop, 1-based exon number) record per exon the
interval touches.  The strand only orients the records, which is irrelevant
to their count, so it is not modelled. -/
def transcript_region_to_exons (c1 c2 : Int) (exons : List (Int × Int)) :
    List (Int × Int × Nat) :=
  exons.enum.filterMap (fun kse =>
    if max (min c1 c2) (min kse.2.1 kse.2.2) ≤ min (max c1 c2) (max kse.2.1 kse.2.2) then
      some (max (min c1 c2) (min kse.2.1 kse.2.2),
        min (max c1 c2) (max kse.2.1 kse.2.2), kse.1 + 1)
    else none)

/-- The feature labels packed for one output row by `csv_to_gtf` (lines
398-439): start-codon records, CDS records, stop-codon records, in source
order.  For `TTS_coord = -1` the stop records mirror
`np.empty(start_parts.shape)` / `np.empty(start_exons.shape)`: uninitialised
arrays with the **same length** as the start-codon records (their garbage
contents are modelled as zeroes — only their number is observable here). -/
def gtfRowFeatures (tis ttsCoord : Int) (strandPlus : Bool)
    (exons : List (Int × Int)) : List String :=
  let startRecs := transcript_region_to_exons tis
    (find_distant_exon_coord tis 2 strandPlus exons) exons
  let stopRecs :=
    if ttsCoord ≠ -1 then
      transcript_region_to_exons ttsCoord
        (find_distant_exon_coord ttsCoord 2 strandPlus exons) exons
    else
      startRecs.map (fun _ => ((0 : Int), (0 : Int), (0 : Nat)))
  let tts : Int :=
    if ttsCoord ≠ -1 then (if strandPlus then ttsCoord - 1 else ttsCoord + 1) else -1
  let cdsRecs := transcript_region_to_exons tis tts exons
  List.replicate startRecs.length "start_codon" ++
    (List.replicate cdsRecs.length "CDS" ++
      List.replicate stopRecs.length "stop_codon")

/-- C5: contrary to the claim, an ORF row without a stop codon
(`TTS_coord = -1`) does **not** produce zero stop-codon records: the
`np.empty(...)` arrays have the shape of the start-codon records, so exactly
`len(start_exons)` (uninitialised) stop-codon records are emitted — on a
single-exon transcript with `TIS_coord = 1010`, one stop-codon record instead
of zero. -/
theorem csv_to_gtf_no_stop_emits_stop_records (tis : Int) (strandPlus : Bool)
    (exons : List (Int × Int)) (ttsCoord : Int) (h : ttsCoord = -1) :
    (gtfRowFeatures tis ttsCoord strandPlus exons).count "stop_codon" =
      (transcript_region_to_exons tis
        (find_distant_exon_coord tis 2 strandPlus exons) exons).length ∧
    (gtfRowFeatures 1010 (-1) true [(1000, 1100)]).count "stop_codon" = 1 := by
  subst h
  constructor
  · rw [gtfRowFeatures]
    simp only [ne_eq, not_true_eq_false, if_false, ite_false, List.count_append,
      List.count_replicate, List.length_map]
    rw [if_neg (by decide : ¬(("start_codon" == "stop_codon") = true)),
      if_neg (by decide : ¬(("CDS" == "stop_codon") = true)),
      if_pos (by decide : ("stop_codon" == "stop_codon") = true)]
    omega
  · decide

theorem csv_to_gtf_no_stop_emits_stop_records_witness :
    (gtfRowFeatures 1010 (-1) true [(1000, 1100)]).count "stop_codon" =
      (transcript_region_to_exons 1010
        (find_distant_exon_coord 1010 2 true [(1000, 1100)]) [(1000, 1100)]).length ∧
    (gtfRowFeatures 1010 (-1) true [(1000, 1100)]).count "stop_codon" = 1 :=
  csv_to_gtf_no_stop_emits_stop_records 1010 true [(1000, 1100)] (-1) rfl
